import Mathlib

/-!
Verification of the AnyDSL/Thorin CPS-IR core against its specification.

This file gives a shallow embedding, in Lean 4, of the parts of the
repository that the specification's claims talk about:

* `Thorin.CFF`    — the call classifier of the CFF lowering pass
                    (`is_bad` in the lower2cff source file);
* `Thorin.Lit`    — `PrimLit` equality and hashing (literal.cpp);
* `Thorin.ScopeM` — `Scope::process`, `Scope::number`, `Scope::~Scope` and
                    `Scope::backwards_rpo` (analyses/scope.cpp), and the node
                    array set-up of `DomTree::create` (analyses/domtree.cpp);
* `Thorin.SSA`    — the per-lambda value tables and the Braun-style SSA
                    construction: `find_tracker`, `set_value`, `get_value`,
                    `fix`, `try_remove_trivial_param` (lambda.cpp);
* `Thorin.Mangle` — `Mangler::mangle_body` and the operand rewriting
                    (analyses/scope.cpp).

Machine integers (`size_t`) are modelled as `Nat`; the only place where the
width matters is the sentinel `size_t(-1)`, modelled as the explicit
constant `2 ^ 64 - 1`.
-/

namespace Thorin

/-! # CFF lowering: the call classifier (`is_bad`) -/

namespace CFF

/-- The observable facts about a callee lambda `to` and the current scope
that `is_bad` in `lower2cff` consults: `to->empty()`, the current phase,
`top.contains(to)`, `scope.inner_contains(to)`, `scope.outer_contains(to)`,
`to->is_basicblock()`, `to->is_returning()`. -/
structure CalleeInfo where
  emptyCallee : Bool
  topContains : Bool
  innerContains : Bool
  outerContains : Bool
  basicblock : Bool
  returning : Bool

/-- Shallow embedding of the lambda `is_bad` inside `lower2cff`
(src/unnamed/part_000, lines 22–33), as a function of the predicates it
calls and of the phase flag `local_` (`local` in the source). -/
def is_bad (local_ : Bool) (c : CalleeInfo) : Bool :=
  if c.emptyCallee then false
  else if local_ then c.innerContains && !c.basicblock
  else
    if c.topContains then !c.returning && !c.outerContains
    else !c.basicblock

/-- The classification as worded by the specification: local phase — `T` is
defined inside the current scope and is not a basic block; global phase —
`T` is a known top-level lambda that is neither a basic block nor returning
and the current scope does not already enclose it. -/
def is_bad_specified (local_ : Bool) (c : CalleeInfo) : Bool :=
  if c.emptyCallee then false
  else if local_ then c.innerContains && !c.basicblock
  else c.topContains && !c.basicblock && !c.returning && !c.outerContains

/-- The amended global-phase classification that the code actually
implements: when `T` is a known top-level lambda, bad iff `T` is not
returning and the current scope does not already enclose it (no
basic-block test there); when `T` is not known top-level, bad iff `T` is
not a basic block. -/
def is_bad_amended (local_ : Bool) (c : CalleeInfo) : Bool :=
  if c.emptyCallee then false
  else if local_ then c.innerContains && !c.basicblock
  else
    if c.topContains then !c.returning && !c.outerContains
    else !c.basicblock

/-- Global phase, callee not (yet) in the `top` set and not a basic block:
for instance a target freshly created by `drop` during the global phase,
whose scope has not yet been visited by `Scope::for_each`. -/
def globalNonTop : CalleeInfo :=
  { emptyCallee := false, topContains := false, innerContains := false,
    outerContains := false, basicblock := false, returning := true }

end CFF

/-! # PrimLit equality and hashing -/

namespace Lit

/-- A primitive literal as the hash-consing of the World sees it: node
kind, type (opaque, by id) and the 64-bit payload box, modelled by its bit
pattern (`bcast<u64, Box>`). -/
structure PrimLit where
  kind : Nat
  ty : Nat
  box : Nat
deriving DecidableEq, Repr

/-- Modelled from the spec: `Literal::equal` (the base-class equality,
whose source is not part of this repository snapshot) is base-equality,
i.e. agreement on node kind and type. -/
def baseEqual (a b : PrimLit) : Bool :=
  a.kind == b.kind && a.ty == b.ty

/-- Shallow embedding of `PrimLit::equal` (literal.cpp, lines 10–15):
base-equality and bit-identical payload boxes. -/
def primLitEqual (a b : PrimLit) : Bool :=
  if !(baseEqual a b) then false
  else a.box == b.box

/-- Modelled from the spec: the hash combiner (`boost::hash_combine`,
external to this repository); its exact mixing function is irrelevant to
the claims, only that the payload bit pattern enters the hash. -/
def hashCombine (seed v : Nat) : Nat :=
  (Nat.xor seed (v + 0x9e3779b9 + seed * 64 + seed / 4)) % 2 ^ 64

/-- Shallow embedding of `PrimLit::hash` (literal.cpp, lines 17–22):
combine the base hash with the payload box bitcast to `u64`. -/
def primLitHash (baseHash : Nat) (a : PrimLit) : Nat :=
  hashCombine baseHash a.box

/-- Hash-consing lookup: an interning table returns an existing node
exactly when `equal` says so (spec §4.B); `find?` over the pool of already
interned literals. -/
def internFind (pool : List PrimLit) (a : PrimLit) : Option PrimLit :=
  pool.find? (fun b => primLitEqual a b)

end Lit

/-! # Scope: postorder numbering, RPO, destructor, backwards RPO -/

namespace ScopeM

/-- The sentinel `size_t(-1)` used for an invalid sid (`⊥`). -/
def botSid : Nat := 2 ^ 64 - 1

/-- The traversal state during `Scope::process`: the pass marks
(`is_visited`/`visit_first`) and the `sid_` fields of the lambdas.
Lambdas are identified by `Nat` ids. -/
structure St where
  visited : List Nat
  sid : Nat → Nat

/-- `visit_first(pass)` on an unvisited lambda. -/
def markVisited (cur : Nat) (st : St) : St :=
  { st with visited := cur :: st.visited }

/-- Assignment `cur->sid_ = i`. -/
def writeSid (cur i : Nat) (st : St) : St :=
  { st with sid := Function.update st.sid cur i }

/-- The `for each successor in scope` loop inside `Scope::number`, also
used verbatim by the entry loop of `Scope::process` (scope.cpp, lines
79–84): visit, via the recursive step `f`, each listed node that is a
member and unvisited. -/
def numberFoldAux (members : List Nat) (f : Nat → Nat → St → Nat × St) :
    List Nat → Nat → St → Nat × St
  | [], i, st => (i, st)
  | s :: rest, i, st =>
    if s ∈ members ∧ s ∉ st.visited then
      let p := f s i st
      numberFoldAux members f rest p.1 p.2
    else
      numberFoldAux members f rest i st

/-- Shallow embedding of `Scope::number` (scope.cpp, lines 142–152): mark
`cur` visited, recurse into each edge-successor that is a scope member and
unvisited, then assign `cur`'s postorder number and return the incremented
counter. The edge function `g` stands for `forwards ? succs() : preds()`;
`members` is the scope membership (`contains`). The C++ recursion carries
no fuel; here `fuel` bounds the recursion depth (one unit per nesting
level), and `fuel = members.length` is shown sufficient, since every
nested call marks a previously unvisited member first. -/
def number (g : Nat → List Nat) (members : List Nat) :
    Nat → Nat → Nat → St → Nat × St
  | 0, _, i, st => (i, st)
  | fuel + 1, cur, i, st =>
    let st1 := markVisited cur st
    let p := numberFoldAux members (fun s j st2 => number g members fuel s j st2)
      (g cur) i st1
    (p.1 + 1, writeSid cur p.1 p.2)

/-- The outer entry loop of `Scope::process` (scope.cpp, lines 79–84):
for each entry, run the successor loop on its successor list. -/
def entriesDFS (g : Nat → List Nat) (members : List Nat) :
    List Nat → Nat → St → Nat × St
  | [], num, st => (num, st)
  | e :: rest, num, st =>
    let p := numberFoldAux members (number g members members.length) (g e) num st
    entriesDFS g members rest p.1 p.2

/-- The entry-numbering loop of `Scope::process` (scope.cpp, lines 86–87):
`for (i = entries.size(); i-- != 0;) entries[i]->sid_ = num++;` — called
here on the reversed entry list. -/
def assignEntries : List Nat → Nat → (Nat → Nat) → Nat × (Nat → Nat)
  | [], num, sid => (num, sid)
  | e :: rest, num, sid => assignEntries rest (num + 1) (Function.update sid e num)

/-- The postorder-to-RPO conversion of `Scope::process` (scope.cpp, lines
93–100): a visited lambda gets `sid = num - 1 - sid`; an unreachable one
gets `sid = size_t(-1)`. -/
def finalSid (visited : List Nat) (num : Nat) (post : Nat → Nat) (m : Nat) : Nat :=
  if m ∈ visited then num - 1 - post m else botSid

/-- The `scope_` back-pointer after `Scope::process`: set on every member
by `insert` during `Scope::analyze`, cleared again on the unreachable ones
by the conversion loop (scope.cpp, line 97). -/
def scopeFlagAfter (members visited : List Nat) (m : Nat) : Bool :=
  decide (m ∈ members) && decide (m ∈ visited)

/-- Everything `Scope::process` (scope.cpp, lines 71–107) leaves behind. -/
structure ProcessResult where
  num : Nat
  post : Nat → Nat
  visited : List Nat
  sid : Nat → Nat
  scopeF : Nat → Bool
  rpo : List Nat

/-- Shallow embedding of `Scope::process` (scope.cpp, lines 71–107).
`g` is the successor function of the underlying graph, `members` the scope
membership computed by `Scope::analyze` (held in `rpo_` in insertion
order), `entries` the entry list, `sid0` the pre-existing `sid_` values.
Steps: mark all entries visited (`visit_first`), run the postorder DFS
from the entries' in-scope successors, number the entries in reversed
presentation order, convert postorder to RPO, sort `rpo_` by the new sid
(`std::sort` with `ScopeLess`; any sort — the claims only concern
membership of the result), and truncate to the number of reachable
lambdas (`rpo_.resize(num)`). -/
def process (g : Nat → List Nat) (members entries : List Nat) (sid0 : Nat → Nat) :
    ProcessResult :=
  let st0 : St := ⟨entries, sid0⟩
  let p1 := entriesDFS g members entries 0 st0
  let p2 := assignEntries entries.reverse p1.1 p1.2.sid
  let num := p2.1
  let sidF := finalSid p1.2.visited num p2.2
  { num := num
    post := p2.2
    visited := p1.2.visited
    sid := sidF
    scopeF := scopeFlagAfter members p1.2.visited
    rpo := (List.insertionSort (fun a b => sidF a ≤ sidF b) members).take num }

/-- The number of scope members the current pass has not visited yet. -/
def unvisCount (members : List Nat) (st : St) : Nat :=
  (members.filter (fun m => decide (m ∉ st.visited))).length

/-- The state relation one DFS step (or a sequence of them) establishes:
the counter does not decrease; sids of already visited nodes are
untouched; the newly visited nodes are members, were unvisited, are
pairwise distinct, and receive postorder numbers in the half-open
interval between the old and the new counter — one number per node. -/
def Step (members : List Nat) (i : Nat) (st : St) (p : Nat × St) : Prop :=
  i ≤ p.1 ∧
  (∀ m ∈ st.visited, p.2.sid m = st.sid m) ∧
  ∃ fresh : List Nat,
    p.2.visited = fresh ++ st.visited ∧
    fresh.length = p.1 - i ∧
    fresh.Nodup ∧
    ∀ m ∈ fresh, m ∉ st.visited ∧ m ∈ members ∧ i ≤ p.2.sid m ∧ p.2.sid m < p.1

/-- Successor-closure of the visit: every node the step visited has all
its in-scope successors visited by the end of the step. -/
def Closed (g : Nat → List Nat) (members : List Nat) (st st2 : St) : Prop :=
  ∀ m ∈ st2.visited, m ∉ st.visited → ∀ s ∈ g m, s ∈ members → s ∈ st2.visited

/-- The fields of a constructed Scope that its destructor touches. -/
structure ScopeData where
  rpoL : List Nat
  sidMap : Nat → Nat
  scopeMap : Nat → Bool

/-- Shallow embedding of `Scope::~Scope` (scope.cpp, lines 109–112): for
each lambda of the (already truncated) `rpo_` vector, reset `scope_ = 0`.
No other field is written. -/
def scopeDestroy (s : ScopeData) : ScopeData :=
  { s with scopeMap := fun m => if m ∈ s.rpoL then false else s.scopeMap m }

/-- The value the `Lambda` constructor gives `backwards_sid_`
(lambda.cpp, line 42): `size_t(-1)`. -/
def backwardsSidInit : Nat := botSid

/-- Shallow embedding of `Scope::backwards_rpo` (scope.cpp, lines
177–192): on first call it allocates the `backwards_rpo_` array of
`size()` uninitialized slots, collects the exit lambdas (members with no
successor inside the scope, per `num_succs`) and stores their count; it
then returns the array. The function performs no numbering and writes no
lambda's `backwards_sid_`; the returned triple is (array contents, exits,
resulting `backwards_sid` map). -/
def backwardsRpo (g : Nat → List Nat) (rpoL : List Nat) (bsid : Nat → Nat) :
    List (Option Nat) × List Nat × (Nat → Nat) :=
  (List.replicate rpoL.length none,
   rpoL.filter (fun l => ((g l).filter (fun s => decide (s ∈ rpoL))).length == 0),
   bsid)

/-- An indexed write `nodes_[idx] = node` into the DomTree node array;
writing past the end of the array is out-of-bounds, modelled as failure. -/
def setNode (nodes : List (Option Nat)) (idx : Nat) (l : Nat) :
    Option (List (Option Nat)) :=
  if idx < nodes.length then some (nodes.set idx (some l)) else none

/-- Shallow embedding of the node-array initialization of
`DomTree::create` (domtree.cpp, lines 42–44): for each lambda of the
scope's rpo, write a fresh DomNode at position `index(lambda)` of the
`nodes_` array of `scope.size()` slots, where `index` is `sid()` for the
forward tree and `backwards_sid()` for the post-dominator tree
(domtree.h, line 63). -/
def domTreeInitNodes (indexF : Nat → Nat) (size : Nat) (rpoL : List Nat) :
    Option (List (Option Nat)) :=
  rpoL.foldlM (fun nodes l => setNode nodes (indexF l) l) (List.replicate size none)

end ScopeM

/-! # Mangler: operand rewriting and `mangle_body` -/

namespace Mangle

mutual
/-- Definitions as the Mangler sees them: lambdas (by id), params,
primitive literals (`lit v` carries the payload box; for a `u1` literal the
boolean value is `v ≠ 0`), `Select` nodes, structural primops with an
ordered operand list, and bottom. -/
inductive MD where
  | lam (id : Nat)
  | mparam (l i : Nat)
  | lit (v : Nat)
  | select (c t f : MD)
  | primop (k : Nat) (ops : MDOps)
  | bot
deriving DecidableEq, Repr
/-- The ordered operand list of a structural primop. -/
inductive MDOps where
  | nil
  | cons (hd : MD) (tl : MDOps)
deriving DecidableEq, Repr
end

mutual
/-- Shallow embedding of `Mangler::mangle(const Def*)` (scope.cpp, lines
324–345). The memoization table built by `Mangler::map`/`lookup` (pass
mark plus `cptr` payload) is modelled by the seed map `m0`, which holds
the entries seeded by `Mangler::mangle()` and `mangle_head` (the old
entry to itself, old params to their replacements, old scope lambdas to
their stubs); `stubOf` is the stub allocation `olambda->stub(...)` of
`mangle_head` for in-scope lambdas encountered before they were seeded.
A visited def returns its mapping; an in-scope lambda maps to its stub;
an out-of-scope lambda or a param maps to itself; a structural primop is
rebuilt from its mangled operands (`world.rebuild`, which returns the
node unchanged when no child changed — pure value equality here). -/
def mangleD (m0 : MD → Option MD) (scopeMem : Nat → Bool) (stubOf : Nat → Nat)
    (d : MD) : MD :=
  match m0 d with
  | some x => x
  | none =>
    match d with
    | .lam id => if scopeMem id then .lam (stubOf id) else .lam id
    | .mparam l i => .mparam l i
    | .lit v => .lit v
    | .bot => .bot
    | .select c t f =>
      .select (mangleD m0 scopeMem stubOf c) (mangleD m0 scopeMem stubOf t)
        (mangleD m0 scopeMem stubOf f)
    | .primop k ops => .primop k (mangleDs m0 scopeMem stubOf ops)

/-- The operand loop of `Mangler::mangle` over a primop's `ops`. -/
def mangleDs (m0 : MD → Option MD) (scopeMem : Nat → Bool) (stubOf : Nat → Nat)
    (l : MDOps) : MDOps :=
  match l with
  | .nil => .nil
  | .cons o rest =>
    .cons (mangleD m0 scopeMem stubOf o) (mangleDs m0 scopeMem stubOf rest)
end

/-- `World::select` with constant folding (spec §4.B): a known boolean
literal condition selects the corresponding side; otherwise a Select node
is interned. -/
def worldSelect (c t f : MD) : MD :=
  match c with
  | .lit v => if v ≠ 0 then t else f
  | _ => .select c t f

/-- The `substitute` check of `Mangler::mangle_body` (scope.cpp, lines
313–315): every rewritten argument at a dropped index equals the
corresponding `drop_with` constant. Iterates over the zipped
`(to_drop, drop_with)` pairs like the source loop over `i`. -/
def substituteOk (nargs : List MD) : List (Nat × MD) → Bool
  | [] => true
  | (j, d) :: rest => (nargs.getD j .bot == d) && substituteOk nargs rest

/-- Modelled from the spec: `ArrayRef::cut(to_drop)` (util/array.h is an
external collaborator outside this snapshot) — the argument list with the
positions listed in `to_drop` removed (`args \ dropped`). -/
def cut (xs : List MD) (idxs : List Nat) : List MD :=
  (xs.enum.filter (fun p => decide (p.1 ∉ idxs))).map (fun p => p.2)

/-- The callee rewriting (`ops[0]`) of `Mangler::mangle_body`
(scope.cpp, lines 298–306): for a Select callee, mangle the condition
and fold the branch when it comes out a literal; otherwise mangle the
callee itself. -/
def mangleCallee (m : MD → MD) (oto : MD) : MD :=
  match oto with
  | .select c tv fv =>
    match m c with
    | .lit v => m (if v ≠ 0 then tv else fv)
    | c2 => worldSelect c2 (m tv) (m fv)
  | _ => m oto

/-- Shallow embedding of `Mangler::mangle_body` (scope.cpp, lines
293–322), parameterized by the operand rewriting `m` (i.e. `mangleD`
with its tables fixed). `oto`/`oargs` are the old lambda's callee and
argument operands. Arguments are rewritten one by one; the callee is
rewritten by `mangleCallee`; then, if the rewritten callee is the old
entry and every rewritten argument at a dropped index equals the dropped
constant, the new terminator is `jump(nentry, nargs.cut(to_drop))`;
otherwise `jump(ntarget, nargs)`. Returns (new callee, new argument
list). -/
def mangle_body (m : MD → MD) (oentry nentry : Nat)
    (to_drop : List Nat) (drop_with : List MD)
    (oto : MD) (oargs : List MD) : MD × List MD :=
  let nargs := oargs.map m
  let ntarget := mangleCallee m oto
  if ntarget = .lam oentry ∧ substituteOk nargs (to_drop.zip drop_with) then
    (.lam nentry, cut nargs to_drop)
  else
    (ntarget, nargs)

end Mangle

/-! # Lambda value tables and the Braun-style SSA constructor -/

namespace SSA

/-- Definitions as the SSA constructor manipulates them: bottom literals
(with their type), primitive literals, parameters (owning lambda and
index) and lambdas. Operands of jumps are atomic here; structural primops
do not participate in the claims about this component. -/
inductive D where
  | bottom (ty : Nat)
  | lit (v : Nat)
  | param (l i : Nat)
  | lam (l : Nat)
deriving DecidableEq, Repr

/-- The mutable per-lambda state: the tracked value table
(`tracked_values_`), the `is_sealed_` and `is_visited_` flags, the
`parent_` pointer (`none` models a null parent), the parameter type list
(`params_`/the Pi type), the terminator callee (`ops_[0]`; `none` =
unterminated) and argument slots (`ops_[1..]`; `none` = unset slot), and
the predecessor lists. `Lambda::preds()` (lambda.cpp, lines 162–191) and
`Lambda::direct_preds()` walk the global use index; the embedding carries
their results (`preds`, `dpreds`) as part of the lambda, since the claims
quantify over them. `todos` holds the pending `Todo(handle, index, type)`
records of an unsealed lambda. -/
structure LamSt where
  values : List (Option D)
  sealedFlag : Bool
  visitedFlag : Bool
  parent : Option Nat
  paramTys : List Nat
  callee : Option D
  args : List (Option D)
  preds : List Nat
  dpreds : List Nat
  todos : List (Nat × Nat × Nat)

/-- The world as the SSA constructor sees it: the lambdas (by id, with
the finite enumeration `lamIds` of the ids in use), the replacement table
written by `Def::replace` (`representative_` pointers), and the
diagnostic sink (`std::cerr`). -/
structure WSt where
  lams : Nat → LamSt
  lamIds : List Nat
  reps : List (D × D)
  diags : List String

/-- Update one lambda's state. -/
def updLam (st : WSt) (l : Nat) (f : LamSt → LamSt) : WSt :=
  { st with lams := Function.update st.lams l (f (st.lams l)) }

/-- Shallow embedding of `Lambda::find_tracker` (lambda.cpp, lines
308–312): grow the table to `handle + 1` slots when the handle is out of
range (fresh slots unbound), then return the (possibly grown) table and
the slot's content. -/
def find_tracker (vals : List (Option D)) (h : Nat) : List (Option D) × Option D :=
  let vals2 :=
    if vals.length ≤ h then vals ++ List.replicate (h + 1 - vals.length) none
    else vals
  (vals2, vals2.getD h none)

/-- Shallow embedding of `Lambda::set_value` (lambda.cpp, lines 314–319):
delete any tracker already in the slot and store a fresh tracker for the
definition (one slot per handle). -/
def set_value (vals : List (Option D)) (h : Nat) (d : D) : List (Option D) :=
  (find_tracker vals h).1.set h (some d)

/-- `set_value` on lambda `l` of the world. -/
def setValueW (st : WSt) (l h : Nat) (d : D) : WSt :=
  updLam st l (fun L => { L with values := set_value L.values h d })

/-- Follow the `representative_` chain (the `Def` proxy dereference);
chains are acyclic, so `reps.length + 1` steps suffice. -/
def derefChain (reps : List (D × D)) : Nat → D → D
  | 0, d => d
  | n + 1, d =>
    match reps.find? (fun pr => pr.1 == d) with
    | some pr => derefChain reps n pr.2
    | none => d

/-- Dereference a definition through the replacement table. -/
def deref (st : WSt) (d : D) : D := derefChain st.reps (st.reps.length + 1) d

/-- The physical content of argument slot `idx` of lambda `P`. -/
def argRaw (st : WSt) (P idx : Nat) : Option D := (st.lams P).args.getD idx none

/-- `pred->arg(index)` as read through `Def` handles: the slot content
dereferenced through the replacement table. -/
def argD (st : WSt) (P idx : Nat) : Option D := (argRaw st P idx).map (deref st)

/-- `Def::replace`: record a `representative_` redirection. -/
def addRep (st : WSt) (p sameD : D) : WSt := { st with reps := (p, sameD) :: st.reps }

/-- Shallow embedding of `Lambda::append_param` (lambda.cpp, lines
83–97): extend the Pi type by the new parameter type and return the new
parameter's index. -/
def appendParam (st : WSt) (l ty : Nat) : WSt × Nat :=
  let idx := (st.lams l).paramTys.length
  (updLam st l (fun L => { L with paramTys := L.paramTys ++ [ty] }), idx)

/-- The text `Lambda::get_value` prints to `std::cerr` for an undefined
value (lambda.cpp, line 370). -/
def undefinedMsg (name : String) : String :=
  "'" ++ name ++ "' may be undefined"

/-- The `return_bottom` tail of `Lambda::get_value` (lambda.cpp, lines
368–371): report to the diagnostic sink, bind the handle to a
`bottom(type)` literal, and return that literal; the call is non-fatal. -/
def returnBottom (st : WSt) (l h ty : Nat) (name : String) : WSt × D :=
  let st1 := { st with diags := st.diags ++ [undefinedMsg name] }
  (setValueW st1 l h (D.bottom ty), D.bottom ty)

/-- The `same`-finding loop of `Lambda::try_remove_trivial_param`
(lambda.cpp, lines 413–421), as a function of the predecessors' argument
values at the parameter's index. The accumulator is the C++ `same`
pointer (`none` = null). Result `none` = the loop returned `param` (keep,
non-trivial); `some acc` = the loop ran to completion with final `same =
acc` (`some none` would be the `assert(same != 0)` failure). -/
def sameLoop (p : D) : List (Option D) → Option D → Option (Option D)
  | [], same => some same
  | d :: rest, same =>
    if d = some p ∨ same = d then sameLoop p rest same
    else if same ≠ none then none
    else sameLoop p rest d

/-- The peek-nulling loop of `Lambda::try_remove_trivial_param`
(lambda.cpp, lines 427–428): for each pair of the parameter's peek set —
one per direct predecessor (spec §3) — overwrite that predecessor's
argument slot at the parameter's index with `bottom(param->type())`. -/
def peekBottom (st : WSt) (dp : List Nat) (idx ty : Nat) : WSt :=
  dp.foldl
    (fun st P =>
      updLam st P (fun L => { L with args := L.args.set idx (some (D.bottom ty)) }))
    st

/-- Does lambda `L` physically use `p` as an operand (callee or argument)? -/
def usesParam (L : LamSt) (p : D) : Bool :=
  L.callee == some p || L.args.contains (some p)

/-- The argument positions of lambda state `L` that physically hold `p`. -/
def argIndicesOf (L : LamSt) (p : D) : List Nat :=
  (L.args.enum.filterMap (fun pr => if pr.2 = some p then some pr.1 else none))

/-- The jump target of lambda `u`, read through `Def` handles. -/
def directSucc (st : WSt) (u : Nat) : List Nat :=
  match (st.lams u).callee.map (deref st) with
  | some (D.lam s) => [s]
  | _ => []

/-- `Lambda::succs()` (lambda.cpp, lines 131–160): the lambdas reachable
through the terminator operands, deduplicated by the `done` set; with
atomic operands these are the lambdas among callee and arguments. -/
def succsOf (st : WSt) (P : Nat) : List Nat :=
  (((st.lams P).callee :: (st.lams P).args).filterMap
    (fun a =>
      match a.map (deref st) with
      | some (D.lam s) => some s
      | _ => none)).dedup

/-- Modelled from the spec: the recursion candidates of
`Lambda::try_remove_trivial_param`. The scan over `param->tracked_uses()`
(lambda.cpp, lines 430–444) relies on `Param::tracked_uses` and the
`Tracker` class, whose sources are not part of this snapshot; per the
spec (§4.E), after replacing `p` the algorithm "recursively attempts to
trivialize parameters of successors that had used `p` as an argument".
The candidates are therefore the pairs (successor lambda, parameter
index) such that some user lambda of `p` supplied `p` as the argument at
that index to that jump-successor, skipping a candidate parameter equal
to `p` itself (the `param != succ->param(index)` guard). Captured before
the replacement, like the C++ `uses` vector. -/
def trivialCandidates (st : WSt) (p : D) : List (Nat × Nat) :=
  st.lamIds.flatMap (fun u =>
    if usesParam (st.lams u) p then
      (argIndicesOf (st.lams u) p).flatMap (fun j =>
        (directSucc st u).filterMap (fun s =>
          if D.param s j = p then none else some (s, j)))
    else [])

/-- The C++ `same` accumulator of the multi-predecessor branch of
`Lambda::get_value` (lambda.cpp, lines 345–353): null, a single common
definition so far, or the sentinel `(const Def*)-1` after divergence. -/
inductive SameAcc where
  | undef
  | one (d : D)
  | diff
deriving DecidableEq, Repr

mutual

/-- Shallow embedding of `Lambda::get_value` (lambda.cpp, lines 321–372).
`fuel` bounds the recursion depth of the C++ (which recurses through
parents and predecessors); `none` = fuel exhausted or an assertion
failure, never returned on the paths the claims exercise. Branches, in
source order: a bound handle returns its tracker's definition (after the
`find_tracker` table growth); a non-head delegates to its parent (a null
parent falls through to `return_bottom`); an unsealed head appends a
parameter, records a Todo and caches the parameter; a sealed head
inspects its predecessors — none: `return_bottom`; one: recurse and
cache; several: the `is_visited_` guard appends a parameter, otherwise
recurse into every predecessor collecting `same`, return the common
definition uncached if they agree, else take the tracker's param or
append one, `fix` the Todo now and cache the result. -/
def get_value (st : WSt) (fuel l h ty : Nat) (name : String) : Option (WSt × D) :=
  match fuel with
  | 0 => none
  | fuel + 1 =>
    let L := st.lams l
    let ft := find_tracker L.values h
    let st := updLam st l (fun L2 => { L2 with values := ft.1 })
    match ft.2 with
    | some d => some (st, d)
    | none =>
      if L.parent ≠ some l then
        match L.parent with
        | some par => get_value st fuel par h ty name
        | none => some (returnBottom st l h ty name)
      else if L.sealedFlag = false then
        let ap := appendParam st l ty
        let st := updLam ap.1 l (fun L2 => { L2 with todos := L2.todos ++ [(h, ap.2, ty)] })
        some (setValueW st l h (D.param l ap.2), D.param l ap.2)
      else
        match L.preds with
        | [] => some (returnBottom st l h ty name)
        | [P] =>
          match get_value st fuel P h ty name with
          | none => none
          | some (st, d) => some (setValueW st l h d, d)
        | _ =>
          if L.visitedFlag then
            let ap := appendParam st l ty
            some (setValueW ap.1 l h (D.param l ap.2), D.param l ap.2)
          else
            let st := updLam st l (fun L2 => { L2 with visitedFlag := true })
            match sameFold st fuel L.preds h ty name SameAcc.undef with
            | none => none
            | some (st, acc) =>
              let st := updLam st l (fun L2 => { L2 with visitedFlag := false })
              match acc with
              | .undef => none
              | .one d => some (st, d)
              | .diff =>
                let ft2 := find_tracker (st.lams l).values h
                let st := updLam st l (fun L2 => { L2 with values := ft2.1 })
                match ft2.2 with
                | some (D.param _ i2) =>
                  match fix st fuel l (h, i2, ty) name with
                  | none => none
                  | some (st, d) => some (setValueW st l h d, d)
                | some _ => none
                | none =>
                  let ap := appendParam st l ty
                  match fix ap.1 fuel l (h, ap.2, ty) name with
                  | none => none
                  | some (st, d) => some (setValueW st l h d, d)
termination_by (fuel, 0, 0)

/-- The predecessor loop of the multi-predecessor branch of
`Lambda::get_value` (lambda.cpp, lines 346–353): query each predecessor,
break to the sentinel on the first divergence. -/
def sameFold (st : WSt) (fuel : Nat) (preds : List Nat) (h ty : Nat) (name : String)
    (acc : SameAcc) : Option (WSt × SameAcc) :=
  match preds with
  | [] => some (st, acc)
  | P :: rest =>
    match get_value st fuel P h ty name with
    | none => none
    | some (st, d) =>
      match acc with
      | .one s =>
        if s ≠ d then some (st, SameAcc.diff)
        else sameFold st fuel rest h ty name (SameAcc.one d)
      | _ => sameFold st fuel rest h ty name (SameAcc.one d)
termination_by (fuel, 1, preds.length + 1)

/-- Shallow embedding of `Lambda::fix` (lambda.cpp, lines 383–403): under
the sealed assertion, wire every predecessor's argument slot at the
Todo's index, then attempt trivial-parameter removal. The Todo is
`(handle, index, type)`. -/
def fix (st : WSt) (fuel l : Nat) (todo : Nat × Nat × Nat) (name : String) :
    Option (WSt × D) :=
  if (st.lams l).sealedFlag = false then none
  else
    match fixFold st fuel (st.lams l).preds todo.1 todo.2.1 todo.2.2 name with
    | none => none
    | some st => tryRemove st fuel l todo.2.1
termination_by (fuel, 4, 0)

/-- The predecessor-wiring loop of `Lambda::fix` (lambda.cpp, lines
390–400): assert the predecessor is terminated and not a critical edge,
make room for the new argument (`resize(index + 2)`), assert the slot is
still unset, and set it to the predecessor's value for the handle. -/
def fixFold (st : WSt) (fuel : Nat) (preds : List Nat) (h idx ty : Nat)
    (name : String) : Option WSt :=
  match preds with
  | [] => some st
  | P :: rest =>
    if (st.lams P).callee = none then none
    else if (succsOf st P).length ≠ 1 then none
    else
      let st :=
        if (st.lams P).args.length ≤ idx then
          updLam st P (fun L =>
            { L with args := L.args ++ List.replicate (idx + 1 - L.args.length) none })
        else st
      if argRaw st P idx ≠ none then none
      else
        match get_value st fuel P h ty name with
        | none => none
        | some (st, d) =>
          let st := updLam st P (fun L => { L with args := L.args.set idx (some d) })
          fixFold st fuel rest h idx ty name
termination_by (fuel, 1, preds.length + 1)

/-- Shallow embedding of `Lambda::try_remove_trivial_param` (lambda.cpp,
lines 405–447) for the parameter `param(idx)` of lambda `l`: under the
sealed assertion, run the `same`-finding loop over the predecessors'
argument values at `idx`; if it returns the parameter, keep it and leave
the state untouched; otherwise capture the recursion candidates, replace
the parameter by `same`, overwrite the peek slots with `bottom`, and
recursively attempt removal on the candidates. -/
def tryRemove (st : WSt) (fuel l idx : Nat) : Option (WSt × D) :=
  match fuel with
  | 0 => none
  | fuel + 1 =>
    if (st.lams l).sealedFlag = false then none
    else
      let p := D.param l idx
      let argsAtIdx := (st.lams l).preds.map (fun P => argD st P idx)
      match sameLoop p argsAtIdx none with
      | none => some (st, p)
      | some none => none
      | some (some sameD) =>
        let cands := trivialCandidates st p
        let st := addRep st p sameD
        let st := peekBottom st (st.lams l).dpreds idx ((st.lams l).paramTys.getD idx 0)
        match scanCands st fuel cands with
        | none => none
        | some st => some (st, sameD)
termination_by (fuel, 2, 0)

/-- The recursion loop of `Lambda::try_remove_trivial_param`: attempt
removal on each captured candidate in turn. -/
def scanCands (st : WSt) (fuel : Nat) (cands : List (Nat × Nat)) : Option WSt :=
  match cands with
  | [] => some st
  | (s, j) :: rest =>
    match tryRemove st fuel s j with
    | none => none
    | some (st, _) => scanCands st fuel rest
termination_by (fuel, 3, cands.length + 1)

end

/-- The Todo loop of `Lambda::seal` (lambda.cpp, lines 378–379). -/
def sealFold (st : WSt) (fuel l : Nat) (name : String) :
    List (Nat × Nat × Nat) → Option WSt
  | [] => some st
  | t :: rest =>
    match fix st fuel l t name with
    | none => none
    | some (st, _) => sealFold st fuel l name rest

/-- Shallow embedding of `Lambda::seal` (lambda.cpp, lines 374–381):
one-shot transition (`none` on the double-seal assertion), then fix all
pending Todos in insertion order and clear them. -/
def sealLam (st : WSt) (fuel l : Nat) (name : String) : Option WSt :=
  if (st.lams l).sealedFlag then none
  else
    let st := updLam st l (fun L => { L with sealedFlag := true })
    match sealFold st fuel l name (st.lams l).todos with
    | none => none
    | some st => some (updLam st l (fun L => { L with todos := [] }))

end SSA

/-! # Concrete fixtures for the witnesses -/

namespace Fix

/-- The diamond graph `0 → {1, 2} → 3` of spec §8, scenario 3. -/
def diamond : Nat → List Nat
  | 0 => [1, 2]
  | 1 => [3]
  | 2 => [3]
  | _ => []

/-- A sealed head lambda with no predecessors and an empty value table. -/
def lamW : SSA.LamSt :=
  { values := [], sealedFlag := true, visitedFlag := false, parent := some 0,
    paramTys := [], callee := none, args := [], preds := [], dpreds := [],
    todos := [] }

/-- A one-lambda world for the SSA witnesses. -/
def wstW : SSA.WSt :=
  { lams := fun _ => lamW, lamIds := [0], reps := [], diags := [] }

/-- A world for the trivial-parameter-removal witness: lambda 0 is a
sealed head with one parameter and two predecessors 1 and 2, both of
which pass the literal 7 at index 0 (spec §8, scenario 2). -/
def wstTriv : SSA.WSt :=
  { lams := fun l =>
      if l = 0 then
        { values := [], sealedFlag := true, visitedFlag := false,
          parent := some 0, paramTys := [9], callee := none, args := [],
          preds := [1, 2], dpreds := [1, 2], todos := [] }
      else
        { values := [], sealedFlag := true, visitedFlag := false,
          parent := some l, paramTys := [], callee := some (SSA.D.lam 0),
          args := [some (SSA.D.lit 7)], preds := [], dpreds := [],
          todos := [] }
    lamIds := [0, 1, 2], reps := [], diags := [] }

/-- A world for the keep case: the two predecessors pass the distinct
literals 7 and 8 at index 0. -/
def wstKeep : SSA.WSt :=
  { lams := fun l =>
      if l = 0 then
        { values := [], sealedFlag := true, visitedFlag := false,
          parent := some 0, paramTys := [9], callee := none, args := [],
          preds := [1, 2], dpreds := [1, 2], todos := [] }
      else
        { values := [], sealedFlag := true, visitedFlag := false,
          parent := some l, callee := some (SSA.D.lam 0),
          args := [some (SSA.D.lit (6 + l))], paramTys := [],
          preds := [], dpreds := [], todos := [] }
    lamIds := [0, 1, 2], reps := [], diags := [] }

end Fix

/-!
# Theorems

Each claim of the specification gets one theorem below, preceded by the
helper lemmas it needs.
-/

theorem list_getD_set_self {α : Type} (l : List α) (i : Nat) (a dflt : α)
    (hi : i < l.length) : (l.set i a).getD i dflt = a := by
  induction l generalizing i with
  | nil => simp at hi
  | cons x xs ih =>
    cases i with
    | zero => rfl
    | succ j => exact ih j (by simpa using hi)

theorem list_getD_set_ne {α : Type} (l : List α) (i j : Nat) (a dflt : α)
    (hne : j ≠ i) : (l.set i a).getD j dflt = l.getD j dflt := by
  induction l generalizing i j with
  | nil => rfl
  | cons x xs ih =>
    cases i with
    | zero => cases j with
      | zero => exact absurd rfl hne
      | succ k => rfl
    | succ i2 => cases j with
      | zero => rfl
      | succ k => exact ih i2 k (fun h => hne (by omega))

theorem list_getD_append_left {α : Type} (l1 l2 : List α) (j : Nat) (dflt : α)
    (hj : j < l1.length) : (l1 ++ l2).getD j dflt = l1.getD j dflt := by
  induction l1 generalizing j with
  | nil => simp at hj
  | cons x xs ih =>
    cases j with
    | zero => rfl
    | succ k => exact ih k (by simpa using hj)

theorem list_getD_replicate {α : Type} (n j : Nat) (x dflt : α) (hj : j < n) :
    (List.replicate n x).getD j dflt = x := by
  induction n generalizing j with
  | zero => omega
  | succ k ih =>
    cases j with
    | zero => rfl
    | succ j2 => exact ih j2 (by omega)

theorem list_getD_append_replicate {α : Type} (l : List α) (n j : Nat) (x dflt : α)
    (h1 : l.length ≤ j) (h2 : j < l.length + n) :
    (l ++ List.replicate n x).getD j dflt = x := by
  induction l generalizing j with
  | nil => simpa using list_getD_replicate n j x dflt (by simpa using h2)
  | cons y ys ih =>
    cases j with
    | zero => simp at h1
    | succ k =>
      have := ih k (by simpa using h1) (by simp at h2 ⊢; omega)
      simpa using this

namespace Mangle

theorem substituteOk_iff (nargs : List MD) (pairs : List (Nat × MD)) :
    substituteOk nargs pairs = true ↔ ∀ pr ∈ pairs, nargs.getD pr.1 MD.bot = pr.2 := by
  induction pairs with
  | nil => simp [substituteOk]
  | cons pr rest ih =>
    rcases pr with ⟨j, d⟩
    simp [substituteOk, ih]

/-- C5: during mangling, for any body lambda with callee `oto` and
arguments `oargs`, the new terminator is the tail-self-call rewrite
`jump(nentry, nargs \ to_drop)` exactly when the rewritten callee is the
old entry and every rewritten argument at a dropped index equals the
corresponding `drop_with` constant; otherwise the rewritten callee and
the full rewritten argument list are used. -/
theorem mangle_body_tail_self_call (m : MD → MD) (oentry nentry : Nat)
    (to_drop : List Nat) (drop_with : List MD) (oto : MD) (oargs : List MD)
    (hlen : to_drop.length = drop_with.length) :
    (mangleCallee m oto = MD.lam oentry ∧
        (∀ i (hi : i < to_drop.length),
          (oargs.map m).getD (to_drop.get ⟨i, hi⟩) MD.bot = drop_with.get ⟨i, hlen ▸ hi⟩) →
      mangle_body m oentry nentry to_drop drop_with oto oargs =
        (MD.lam nentry, cut (oargs.map m) to_drop)) ∧
    (¬(mangleCallee m oto = MD.lam oentry ∧
        (∀ i (hi : i < to_drop.length),
          (oargs.map m).getD (to_drop.get ⟨i, hi⟩) MD.bot = drop_with.get ⟨i, hlen ▸ hi⟩)) →
      mangle_body m oentry nentry to_drop drop_with oto oargs =
        (mangleCallee m oto, oargs.map m)) := by
  have hzl : (to_drop.zip drop_with).length = to_drop.length := by
    rw [List.length_zip, hlen, Nat.min_self]
  have key : substituteOk (oargs.map m) (to_drop.zip drop_with) = true ↔
      (∀ i (hi : i < to_drop.length),
        (oargs.map m).getD (to_drop.get ⟨i, hi⟩) MD.bot = drop_with.get ⟨i, hlen ▸ hi⟩) := by
    rw [substituteOk_iff]
    constructor
    · intro hall i hi
      have hz : i < (to_drop.zip drop_with).length := by omega
      have hmem : (to_drop.zip drop_with).get ⟨i, hz⟩ ∈ to_drop.zip drop_with :=
        List.get_mem _ _ _
      have hval := hall _ hmem
      rwa [List.get_zip] at hval
    · intro hall pr hpr
      obtain ⟨⟨i, hi⟩, heq⟩ := List.mem_iff_get.mp hpr
      rw [List.get_zip] at heq
      have hi2 : i < to_drop.length := by omega
      have := hall i hi2
      rw [← heq]
      exact this
  constructor
  · intro h
    unfold mangle_body
    rw [if_pos ⟨h.1, key.mpr h.2⟩]
  · intro hneg
    unfold mangle_body
    rw [if_neg (fun h2 => hneg ⟨h2.1, key.mp h2.2⟩)]

/-- C5 witness: dropping parameter 0 with the literal 5; a body lambda
that calls the old entry with that same literal at index 0 is rewritten
to a jump to the new entry without the dropped argument. -/
theorem mangle_body_tail_self_call_witness :
    ([0].length = [MD.lit 5].length) ∧
    mangle_body (fun d => d) 0 1 [0] [MD.lit 5] (MD.lam 0) [MD.lit 5, MD.lit 7] =
      (MD.lam 1, [MD.lit 7]) := by
  have h := mangle_body_tail_self_call (fun d => d) 0 1 [0] [MD.lit 5]
    (MD.lam 0) [MD.lit 5, MD.lit 7] (by decide)
  have hforall : ∀ i (hi : i < [(0 : Nat)].length),
      (List.map (fun d => d) [MD.lit 5, MD.lit 7]).getD ([(0 : Nat)].get ⟨i, hi⟩) MD.bot =
        [MD.lit 5].get ⟨i, by simp at hi ⊢; omega⟩ := by
    intro i hi
    have hz : i = 0 := by simp at hi; omega
    subst hz
    rfl
  have h2 := h.1 ⟨by decide, hforall⟩
  exact ⟨by decide, h2.trans (by decide)⟩

end Mangle

namespace SSA

theorem find_tracker_fst_length (vals : List (Option D)) (h : Nat) :
    (find_tracker vals h).1.length = max vals.length (h + 1) := by
  unfold find_tracker
  split
  · simp only [List.length_append, List.length_replicate]
    omega
  · simp only []
    omega

theorem find_tracker_no_growth (vals : List (Option D)) (h : Nat)
    (hlt : h < vals.length) : (find_tracker vals h).1 = vals := by
  unfold find_tracker
  split
  · omega
  · rfl

theorem set_value_length (vals : List (Option D)) (h : Nat) (d : D) :
    (set_value vals h d).length = max vals.length (h + 1) := by
  unfold set_value
  rw [List.length_set, find_tracker_fst_length]

theorem set_value_getD_self (vals : List (Option D)) (h : Nat) (d : D) :
    (set_value vals h d).getD h none = some d := by
  unfold set_value
  exact list_getD_set_self _ _ _ _ (by rw [find_tracker_fst_length]; omega)

theorem find_tracker_of_set_value (vals : List (Option D)) (h : Nat) (d : D) :
    find_tracker (set_value vals h d) h = (set_value vals h d, some d) := by
  have hlen : h < (set_value vals h d).length := by rw [set_value_length]; omega
  have h1 : (find_tracker (set_value vals h d) h).1 = set_value vals h d :=
    find_tracker_no_growth _ _ hlen
  have h2 : (find_tracker (set_value vals h d) h).2 = some d := by
    show (find_tracker (set_value vals h d) h).1.getD h none = some d
    rw [h1]
    exact set_value_getD_self vals h d
  calc find_tracker (set_value vals h d) h
      = ((find_tracker (set_value vals h d) h).1,
         (find_tracker (set_value vals h d) h).2) := rfl
    _ = (set_value vals h d, some d) := by rw [h1, h2]

theorem updLam_lams_self (st : WSt) (l : Nat) (f : LamSt → LamSt) :
    (updLam st l f).lams l = f (st.lams l) := by
  unfold updLam
  simp

/-- C10: the value-table laws of the per-lambda SSA tables.
(1) `set_value(h, v)` followed by `get_value(h, τ, n)` on the same lambda
returns `v` — and the lookup leaves the world untouched.
(2) `set_value` on an already-bound handle replaces the binding in place
(the second write lands in the same single slot — no duplication).
(3) `find_tracker` on a handle at or beyond the table size grows the
table to `handle + 1` slots instead of faulting, reports the handle
unbound, preserves the old slots and leaves every fresh slot unbound. -/
theorem value_table_laws (st : WSt) (l h : Nat) (d e : D) (ty : Nat)
    (name : String) (fuel : Nat) (vals : List (Option D))
    (hgrow : vals.length ≤ h) :
    get_value (setValueW st l h d) (fuel + 1) l h ty name =
      some (setValueW st l h d, d) ∧
    set_value (set_value vals h d) h e = set_value vals h e ∧
    ((find_tracker vals h).1.length = h + 1 ∧
      (find_tracker vals h).2 = none ∧
      (∀ j, j < vals.length → (find_tracker vals h).1.getD j none = vals.getD j none) ∧
      (∀ j, vals.length ≤ j → j ≤ h → (find_tracker vals h).1.getD j none = none)) := by
  refine ⟨?_, ?_, ?_, ?_, ?_, ?_⟩
  · have hvals : ((setValueW st l h d).lams l).values = set_value (st.lams l).values h d := by
      unfold setValueW
      rw [updLam_lams_self]
    rw [get_value]
    rw [hvals, find_tracker_of_set_value]
    simp only [updLam, ← hvals, Function.update_eq_self]
  · have h1 : find_tracker (set_value vals h d) h = (set_value vals h d, some d) :=
      find_tracker_of_set_value vals h d
    calc set_value (set_value vals h d) h e
        = (find_tracker (set_value vals h d) h).1.set h (some e) := rfl
      _ = (set_value vals h d).set h (some e) := by rw [h1]
      _ = ((find_tracker vals h).1.set h (some d)).set h (some e) := rfl
      _ = (find_tracker vals h).1.set h (some e) := by rw [List.set_set]
      _ = set_value vals h e := rfl
  · rw [find_tracker_fst_length]; omega
  · show (find_tracker vals h).1.getD h none = none
    unfold find_tracker
    rw [if_pos hgrow]
    simp only []
    exact list_getD_append_replicate _ _ _ _ _ hgrow (by omega)
  · intro j hj
    unfold find_tracker
    rw [if_pos hgrow]
    simp only []
    exact list_getD_append_left _ _ _ _ hj
  · intro j hj1 hj2
    unfold find_tracker
    rw [if_pos hgrow]
    simp only []
    exact list_getD_append_replicate _ _ _ _ _ hj1 (by omega)

/-- C10 witness: handle 3 on an empty table. -/
theorem value_table_laws_witness :
    ([] : List (Option D)).length ≤ 3 ∧
    get_value (setValueW Fix.wstW 0 3 (D.lit 4)) 1 0 3 7 "v" =
      some (setValueW Fix.wstW 0 3 (D.lit 4), D.lit 4) ∧
    (find_tracker ([] : List (Option D)) 3).1.length = 3 + 1 := by
  have hlaws := value_table_laws Fix.wstW 0 3 (D.lit 4) (D.lit 5) 7 "v" 0 [] (by decide)
  exact ⟨by decide, hlaws.1, hlaws.2.2.1⟩

theorem updLam_lams_other (st : WSt) (l Q : Nat) (f : LamSt → LamSt)
    (hne : Q ≠ l) : (updLam st l f).lams Q = st.lams Q := by
  unfold updLam
  simp [Function.update_noteq hne]

theorem sameLoop_found_acc (p s : D) (xs : List (Option D))
    (hall : ∀ x ∈ xs, x = some p ∨ x = some s) :
    sameLoop p xs (some s) = some (some s) := by
  induction xs with
  | nil => rfl
  | cons x rest ih =>
    rcases hall x (by simp) with hx | hx
    · rw [sameLoop, if_pos (Or.inl hx)]
      exact ih (fun y hy => hall y (List.mem_cons_of_mem _ hy))
    · rw [sameLoop, if_pos (Or.inr hx.symm)]
      exact ih (fun y hy => hall y (List.mem_cons_of_mem _ hy))

theorem sameLoop_found (p s : D) (xs : List (Option D)) (hsp : s ≠ p)
    (hall : ∀ x ∈ xs, x = some p ∨ x = some s) (hs : some s ∈ xs) :
    sameLoop p xs none = some (some s) := by
  induction xs with
  | nil => simp at hs
  | cons x rest ih =>
    rcases hall x (by simp) with hx | hx
    · subst hx
      have hs2 : some s ∈ rest := by
        rcases List.mem_cons.mp hs with h | h
        · exact absurd (Option.some.inj h) hsp
        · exact h
      rw [sameLoop, if_pos (Or.inl rfl)]
      exact ih (fun y hy => hall y (List.mem_cons_of_mem _ hy)) hs2
    · subst hx
      rw [sameLoop, if_neg (by simp [hsp]), if_neg (by simp)]
      exact sameLoop_found_acc p s rest (fun y hy => hall y (List.mem_cons_of_mem _ hy))

theorem sameLoop_keep_acc (p a : D) (xs : List (Option D)) (x0 : Option D)
    (hx : x0 ∈ xs) (h1 : x0 ≠ some p) (h2 : x0 ≠ some a) :
    sameLoop p xs (some a) = none := by
  induction xs with
  | nil => simp at hx
  | cons y rest ih =>
    by_cases hcase : y = some p ∨ some a = y
    · have hx2 : x0 ∈ rest := by
        rcases List.mem_cons.mp hx with h | h
        · subst h
          rcases hcase with h | h
          · exact absurd h h1
          · exact absurd h.symm h2
        · exact h
      rw [sameLoop, if_pos hcase]
      exact ih hx2
    · rw [sameLoop, if_neg hcase, if_pos (by simp)]

theorem sameLoop_keep (p a b : D) (l1 l2 l3 : List (Option D))
    (ha : a ≠ p) (hb : b ≠ p) (hab : a ≠ b) :
    sameLoop p (l1 ++ some a :: (l2 ++ some b :: l3)) none = none := by
  induction l1 with
  | nil =>
    rw [List.nil_append, sameLoop, if_neg (by simp [ha]), if_neg (by simp)]
    exact sameLoop_keep_acc p a (l2 ++ some b :: l3) (some b)
      (by simp) (by simp [hb]) (by simpa using Ne.symm hab)
  | cons y rest ih =>
    rw [List.cons_append]
    by_cases hcase : y = some p ∨ (none : Option D) = y
    · rw [sameLoop, if_pos hcase]
      exact ih
    · rw [sameLoop, if_neg hcase, if_neg (by simp)]
      push_neg at hcase
      rcases y with _ | c
      · exact absurd rfl hcase.2
      · by_cases hca : c = a
        · subst hca
          exact sameLoop_keep_acc p c (rest ++ some c :: (l2 ++ some b :: l3)) (some b)
            (by simp) (by simp [hb]) (by simpa using Ne.symm hab)
        · exact sameLoop_keep_acc p c (rest ++ some a :: (l2 ++ some b :: l3)) (some a)
            (by simp) (by simp [ha]) (by simpa using Ne.symm hca)

theorem peekBottom_lams_not_mem (st : WSt) (dp : List Nat) (idx ty Q : Nat)
    (hq : Q ∉ dp) : (peekBottom st dp idx ty).lams Q = st.lams Q := by
  induction dp generalizing st with
  | nil => rfl
  | cons P rest ih =>
    have hq2 : Q ∉ rest := fun h => hq (by simp [h])
    have hqP : Q ≠ P := fun h => hq (by simp [h])
    show (peekBottom (updLam st P _) rest idx ty).lams Q = st.lams Q
    rw [ih _ hq2, updLam_lams_other _ _ _ _ hqP]

theorem peekBottom_args_length (st : WSt) (dp : List Nat) (idx ty P : Nat) :
    ((peekBottom st dp idx ty).lams P).args.length = ((st.lams P).args.length) := by
  induction dp generalizing st with
  | nil => rfl
  | cons Q rest ih =>
    show ((peekBottom (updLam st Q _) rest idx ty).lams P).args.length = _
    rw [ih]
    by_cases hpq : P = Q
    · subst hpq
      rw [updLam_lams_self]
      simp
    · rw [updLam_lams_other _ _ _ _ hpq]

theorem peekBottom_slot (st : WSt) (dp : List Nat) (idx ty : Nat) (P : Nat)
    (hp : P ∈ dp) (hlen : idx < (st.lams P).args.length) :
    ((peekBottom st dp idx ty).lams P).args.getD idx none = some (D.bottom ty) := by
  induction dp generalizing st with
  | nil => simp at hp
  | cons Q rest ih =>
    show ((peekBottom (updLam st Q _) rest idx ty).lams P).args.getD idx none = _
    by_cases hpr : P ∈ rest
    · refine ih _ hpr ?_
      by_cases hpq : P = Q
      · subst hpq
        rw [updLam_lams_self]
        simpa using hlen
      · rwa [updLam_lams_other _ _ _ _ hpq]
    · have hpq : P = Q := by
        rcases List.mem_cons.mp hp with h | h
        · exact h
        · exact absurd h hpr
      subst hpq
      rw [peekBottom_lams_not_mem _ _ _ _ _ hpr, updLam_lams_self]
      exact list_getD_set_self _ _ _ _ hlen

/-- C3: fixing a Todo ends in `try_remove_trivial_param` (lambda.cpp,
line 402); for the parameter `p = param(idx)` of the sealed lambda `l`:
(i) when every predecessor's argument at `idx` reads as `p` itself or as
one unique other definition `same`, the parameter is replaced by `same`
(a `representative_` entry), every direct predecessor's argument slot at
`idx` is overwritten with `bottom(p.type)`, removal is recursively
attempted on exactly the captured candidate parameters of successor
lambdas that had received `p` as an argument, and `same` is returned;
(ii) when two predecessors supply distinct non-self argument values, the
parameter is kept and the state is left untouched. -/
theorem try_remove_trivial_param_spec (st : WSt) (fuel l idx : Nat)
    (hseal : (st.lams l).sealedFlag = true) :
    (∀ sameD : D, sameD ≠ D.param l idx →
      (∀ P ∈ (st.lams l).preds,
        argD st P idx = some (D.param l idx) ∨ argD st P idx = some sameD) →
      (∃ P, P ∈ (st.lams l).preds ∧ argD st P idx = some sameD) →
      ((addRep st (D.param l idx) sameD).reps =
          (D.param l idx, sameD) :: st.reps ∧
        (∀ P ∈ (st.lams l).dpreds, idx < (st.lams P).args.length →
          ((peekBottom (addRep st (D.param l idx) sameD) ((st.lams l).dpreds) idx
              ((st.lams l).paramTys.getD idx 0)).lams P).args.getD idx none =
            some (D.bottom ((st.lams l).paramTys.getD idx 0))) ∧
        tryRemove st (fuel + 1) l idx =
          (match scanCands (peekBottom (addRep st (D.param l idx) sameD)
              ((st.lams l).dpreds) idx ((st.lams l).paramTys.getD idx 0)) fuel
              (trivialCandidates st (D.param l idx)) with
            | none => none
            | some st2 => some (st2, sameD)))) ∧
    (∀ (l1 l2 l3 : List (Option D)) (a b : D),
      (st.lams l).preds.map (fun P => argD st P idx) =
        l1 ++ some a :: (l2 ++ some b :: l3) →
      a ≠ D.param l idx → b ≠ D.param l idx → a ≠ b →
      tryRemove st (fuel + 1) l idx = some (st, D.param l idx)) := by
  constructor
  · intro sameD hne hall hex
    refine ⟨rfl, ?_, ?_⟩
    · intro P hp hlen
      exact peekBottom_slot _ _ _ _ P hp hlen
    · rw [tryRemove]
      rw [if_neg (by rw [hseal]; simp)]
      have hloop : sameLoop (D.param l idx)
          ((st.lams l).preds.map (fun P => argD st P idx)) none = some (some sameD) := by
        apply sameLoop_found _ _ _ hne
        · intro x hx
          obtain ⟨P, hP, hPx⟩ := List.mem_map.mp hx
          rcases hall P hP with h | h
          · exact Or.inl (by rw [← hPx, h])
          · exact Or.inr (by rw [← hPx, h])
        · obtain ⟨P, hP, hPv⟩ := hex
          exact List.mem_map.mpr ⟨P, hP, hPv⟩
      simp only [hloop]
      rfl
  · intro l1 l2 l3 a b hsplit hha hhb hab
    rw [tryRemove]
    rw [if_neg (by rw [hseal]; simp)]
    have hloop : sameLoop (D.param l idx)
        ((st.lams l).preds.map (fun P => argD st P idx)) none = none := by
      rw [hsplit]
      exact sameLoop_keep _ _ _ _ _ _ hha hhb hab
    simp only [hloop]

/-- C3 witness: two predecessors both passing the literal 7 at index 0 of
a sealed two-predecessor lambda — the parameter is trivial, gets replaced
by 7, and the peek slots become bottom. -/
theorem try_remove_trivial_param_spec_witness :
    (Fix.wstTriv.lams 0).sealedFlag = true ∧
    ((addRep Fix.wstTriv (D.param 0 0) (D.lit 7)).reps =
        (D.param 0 0, D.lit 7) :: Fix.wstTriv.reps ∧
      (∀ P ∈ (Fix.wstTriv.lams 0).dpreds, 0 < (Fix.wstTriv.lams P).args.length →
        ((peekBottom (addRep Fix.wstTriv (D.param 0 0) (D.lit 7))
            ((Fix.wstTriv.lams 0).dpreds) 0
            ((Fix.wstTriv.lams 0).paramTys.getD 0 0)).lams P).args.getD 0 none =
          some (D.bottom ((Fix.wstTriv.lams 0).paramTys.getD 0 0))) ∧
      tryRemove Fix.wstTriv (1 + 1) 0 0 =
        (match scanCands (peekBottom (addRep Fix.wstTriv (D.param 0 0) (D.lit 7))
            ((Fix.wstTriv.lams 0).dpreds) 0 ((Fix.wstTriv.lams 0).paramTys.getD 0 0)) 1
            (trivialCandidates Fix.wstTriv (D.param 0 0)) with
          | none => none
          | some st2 => some (st2, D.lit 7))) := by
  refine ⟨rfl, (try_remove_trivial_param_spec Fix.wstTriv 1 0 0 rfl).1 (D.lit 7)
    (by decide) ?_ ?_⟩
  · intro P hP
    fin_cases hP <;> exact Or.inr (by decide)
  · exact ⟨1, by decide, by decide⟩

/-- C4: for a sealed head lambda (`parent == this`) with zero
predecessors, `get_value` on an unbound handle emits the undefined-value
diagnostic, binds the handle to `bottom(τ)` (caching it in the value
table) and returns that bottom literal; the call returns normally
(non-fatal). -/
theorem get_value_no_preds_bottom (st : WSt) (fuel l h ty : Nat) (name : String)
    (hhead : (st.lams l).parent = some l)
    (hseal : (st.lams l).sealedFlag = true)
    (hpreds : (st.lams l).preds = [])
    (hnob : (find_tracker (st.lams l).values h).2 = none) :
    ∃ st2, get_value st (fuel + 1) l h ty name = some (st2, D.bottom ty) ∧
      st2.diags = st.diags ++ [undefinedMsg name] ∧
      (st2.lams l).values.getD h none = some (D.bottom ty) := by
  rw [get_value]
  rw [hnob]
  simp only [hhead, hseal, hpreds, ne_eq, not_true_eq_false, if_false,
    Bool.true_eq_false, reduceIte]
  refine ⟨_, rfl, ?_, ?_⟩
  · simp [returnBottom, setValueW, updLam]
  · simp only [returnBottom, setValueW]
    rw [updLam_lams_self]
    exact set_value_getD_self ..

/-- C4 witness: the one-lambda world, lambda 0 sealed with no
predecessors, handle 0 unbound. -/
theorem get_value_no_preds_bottom_witness :
    (Fix.wstW.lams 0).parent = some 0 ∧
    (Fix.wstW.lams 0).sealedFlag = true ∧
    (Fix.wstW.lams 0).preds = [] ∧
    (find_tracker (Fix.wstW.lams 0).values 0).2 = none ∧
    ∃ st2, get_value Fix.wstW 1 0 0 5 "x" = some (st2, D.bottom 5) ∧
      st2.diags = Fix.wstW.diags ++ [undefinedMsg "x"] ∧
      (st2.lams 0).values.getD 0 none = some (D.bottom 5) := by
  refine ⟨rfl, rfl, rfl, by decide, ?_⟩
  exact get_value_no_preds_bottom Fix.wstW 0 0 0 5 "x" rfl rfl rfl (by decide)

end SSA

namespace CFF

/-- C6 counterexample: in the global phase, a non-empty callee that is
not in the `top` set and is not a basic block is classified bad by the
code (the `else` branch tests only `is_basicblock`), while the
specification's wording (top-level ∧ ¬basic-block ∧ ¬returning ∧
¬enclosed) classifies it not bad. So `is_bad` does not match the
specification's classification. -/
theorem is_bad_deviates_from_spec :
    is_bad false globalNonTop = true ∧ is_bad_specified false globalNonTop = false := by
  constructor <;> rfl

/-- C6 (amended): the classifier agrees everywhere with the amended
wording — local phase as specified; global phase: for a known top-level
callee, bad iff not returning and not already enclosed by the current
scope (no basic-block test); for a callee not known top-level, bad iff
not a basic block. -/
theorem is_bad_matches_amended (local_ : Bool) (c : CalleeInfo) :
    is_bad local_ c = is_bad_amended local_ c := rfl

end CFF

namespace Lit

/-- C9: `PrimLit` equality holds exactly for base-equal nodes with
bit-identical payload boxes; the hash combines the base hash with the
box's bit pattern; consequently two literals of the same kind and type
with different bit patterns are never `equal`, and the hash-consing
lookup only ever returns an `equal` node — so it never merges them. -/
theorem primLit_equal_spec (a b : PrimLit) (bh : Nat) :
    (primLitEqual a b = true ↔ (baseEqual a b = true ∧ a.box = b.box)) ∧
    primLitHash bh a = hashCombine bh a.box ∧
    (a.box ≠ b.box → primLitEqual a b = false) ∧
    (∀ pool b2, internFind pool a = some b2 → primLitEqual a b2 = true) := by
  refine ⟨?_, rfl, ?_, ?_⟩
  · unfold primLitEqual
    rcases h : baseEqual a b <;> simp [h]
  · intro hne
    unfold primLitEqual
    rcases h : baseEqual a b <;> simp [h, hne]
  · intro pool b2 hfind
    exact List.find?_some hfind

/-- C9 witness: two one-bit literals of the same kind and type with
different boxes are not equal and are not merged. -/
theorem primLit_equal_spec_witness :
    (⟨1, 1, 0⟩ : PrimLit).box ≠ (⟨1, 1, 1⟩ : PrimLit).box ∧
    primLitEqual ⟨1, 1, 0⟩ ⟨1, 1, 1⟩ = false := by
  have h := primLit_equal_spec ⟨1, 1, 0⟩ ⟨1, 1, 1⟩ 0
  exact ⟨by decide, h.2.2.1 (by decide)⟩

end Lit

namespace ScopeM

/-- C8: `Scope::backwards_rpo` performs no numbering — it returns the
freshly allocated array with every slot uninitialized, and the
`backwards_sid` of every lambda is exactly what it was before the call
(i.e. the constructor value `size_t(-1)`, which nothing in the repository
ever overwrites). The claimed reverse-postorder numbering from the exits
never happens; only the exit set itself is computed. -/
theorem backwards_rpo_no_numbering (g : Nat → List Nat) (rpoL : List Nat)
    (bsid : Nat → Nat) :
    (backwardsRpo g rpoL bsid).2.2 = bsid ∧
    (backwardsRpo g rpoL bsid).1 = List.replicate rpoL.length none := ⟨rfl, rfl⟩

/-- C2: with every member's `backwards_sid` still at the constructor
value `⊥` (nothing in the repository ever assigns it — see
`backwards_rpo_no_numbering`), the very first node-array write of
`DomTree::create` for the post-dominator tree (`forwards = false`)
indexes `nodes_[backwards_sid]`, which is out of bounds for any non-empty
scope; the post-dominator tree claimed to satisfy the dominator property
is never even constructed. -/
theorem postdom_node_init_out_of_bounds (rpoL : List Nat) (bsid : Nat → Nat)
    (hne : rpoL ≠ []) (hb : ∀ l ∈ rpoL, bsid l = backwardsSidInit)
    (hlen : rpoL.length ≤ botSid) :
    domTreeInitNodes bsid rpoL.length rpoL = none := by
  rcases rpoL with _ | ⟨l, rest⟩
  · exact absurd rfl hne
  · have hbl : bsid l = botSid := hb l (by simp)
    have hfail : setNode (List.replicate (l :: rest).length none) (bsid l) l = none := by
      unfold setNode
      rw [hbl]
      simp only [List.length_replicate]
      split
      · omega
      · rfl
    simp only [domTreeInitNodes, List.foldlM_cons, hfail]
    rfl

/-- C2 witness: the single-lambda scope. -/
theorem postdom_node_init_out_of_bounds_witness :
    domTreeInitNodes (fun _ => backwardsSidInit) 1 [0] = none :=
  postdom_node_init_out_of_bounds [0] (fun _ => backwardsSidInit)
    (by simp) (fun _ _ => rfl) (by decide)

/-- C7 counterexample: for the one-lambda scope, the member's `sid`
after construction is 0; after the destructor runs it is still 0, not
`⊥` — `~Scope` clears only the `scope_` back-pointer (scope.cpp, lines
109–112), never `sid_`. -/
theorem scope_destroy_keeps_sid :
    (scopeDestroy
        ⟨(process (fun _ => []) [0] [0] (fun _ => 0)).rpo,
         (process (fun _ => []) [0] [0] (fun _ => 0)).sid,
         (process (fun _ => []) [0] [0] (fun _ => 0)).scopeF⟩).sidMap 0 = 0 ∧
    (scopeDestroy
        ⟨(process (fun _ => []) [0] [0] (fun _ => 0)).rpo,
         (process (fun _ => []) [0] [0] (fun _ => 0)).sid,
         (process (fun _ => []) [0] [0] (fun _ => 0)).scopeF⟩).sidMap 0 ≠ botSid := by
  constructor
  · decide
  · decide

/-- C7 (amended): what the destructor actually guarantees — every lambda
of the scope's rpo has its `scope_` back-pointer reset, and every
lambda's `sid_` is left exactly as it was (a later Scope overwrites it;
it is not reset to `⊥`). -/
theorem scope_destroy_resets_scope_flag (s : ScopeData) :
    (scopeDestroy s).sidMap = s.sidMap ∧
    ∀ m ∈ s.rpoL, (scopeDestroy s).scopeMap m = false := by
  refine ⟨rfl, fun m hm => ?_⟩
  simp [scopeDestroy, hm]

/-- C7 amended-claim witness: the one-lambda scope again. -/
theorem scope_destroy_resets_scope_flag_witness :
    (scopeDestroy ⟨[0], fun _ => 0, fun _ => true⟩).sidMap = (fun _ => (0 : Nat)) ∧
    (scopeDestroy ⟨[0], fun _ => 0, fun _ => true⟩).scopeMap 0 = false := by
  have h := scope_destroy_resets_scope_flag ⟨[0], fun _ => 0, fun _ => true⟩
  exact ⟨h.1, h.2 0 (by simp)⟩

theorem length_filter_mono_pred (p q : Nat → Bool) (l : List Nat)
    (h : ∀ a, p a = true → q a = true) :
    (l.filter p).length ≤ (l.filter q).length := by
  induction l with
  | nil => simp
  | cons a t ih =>
    cases hpa : p a
    · rw [List.filter_cons_of_neg (by simp [hpa])]
      cases hqa : q a
      · rw [List.filter_cons_of_neg (by simp [hqa])]
        exact ih
      · rw [List.filter_cons_of_pos hqa]
        simp only [List.length_cons]
        omega
    · rw [List.filter_cons_of_pos hpa, List.filter_cons_of_pos (h a hpa)]
      simpa using ih

theorem length_filter_lt_pred (p q : Nat → Bool) (l : List Nat)
    (h : ∀ a, p a = true → q a = true) (a0 : Nat) (ha0 : a0 ∈ l)
    (hq : q a0 = true) (hp : p a0 = false) :
    (l.filter p).length < (l.filter q).length := by
  induction l with
  | nil => simp at ha0
  | cons a t ih =>
    rcases List.mem_cons.mp ha0 with rfl | hmem
    · rw [List.filter_cons_of_neg (by simp [hp]), List.filter_cons_of_pos hq]
      have := length_filter_mono_pred p q t h
      simp only [List.length_cons]
      omega
    · cases hpa : p a
      · rw [List.filter_cons_of_neg (by simp [hpa])]
        cases hqa : q a
        · rw [List.filter_cons_of_neg (by simp [hqa])]
          exact ih hmem
        · rw [List.filter_cons_of_pos hqa]
          have := ih hmem
          simp only [List.length_cons]
          omega
      · rw [List.filter_cons_of_pos hpa, List.filter_cons_of_pos (h a hpa)]
        have := ih hmem
        simpa using this

theorem unvisCount_le_length (members : List Nat) (st : St) :
    unvisCount members st ≤ members.length :=
  List.length_filter_le _ _

theorem unvisCount_mono (members : List Nat) (st st2 : St)
    (hsub : ∀ m ∈ st.visited, m ∈ st2.visited) :
    unvisCount members st2 ≤ unvisCount members st := by
  refine length_filter_mono_pred _ _ _ (fun a ha => ?_)
  simp only [decide_eq_true_eq] at ha ⊢
  exact fun hmem => ha (hsub a hmem)

theorem unvisCount_mark_lt (members : List Nat) (st : St) (cur : Nat)
    (hmem : cur ∈ members) (hnv : cur ∉ st.visited) :
    unvisCount members (markVisited cur st) < unvisCount members st := by
  refine length_filter_lt_pred _ _ _ (fun a ha => ?_) cur hmem
    (by simpa using hnv) (by simp [markVisited])
  simp only [decide_eq_true_eq, markVisited] at ha ⊢
  intro hv
  exact ha (List.mem_cons_of_mem _ hv)

theorem unvisCount_pos (members : List Nat) (st : St) (cur : Nat)
    (hmem : cur ∈ members) (hnv : cur ∉ st.visited) :
    1 ≤ unvisCount members st := by
  have : cur ∈ members.filter (fun m => decide (m ∉ st.visited)) :=
    List.mem_filter.mpr ⟨hmem, by simpa using hnv⟩
  have := List.length_pos.mpr (List.ne_nil_of_mem this)
  simpa [unvisCount] using this

theorem Step.refl_ (members : List Nat) (i : Nat) (st : St) :
    Step members i st (i, st) :=
  ⟨Nat.le_refl i, fun _ _ => rfl, [], rfl, by simp, List.nodup_nil, by simp⟩

theorem Step.mono_visited (members : List Nat) (i : Nat) (st : St) (p : Nat × St)
    (hs : Step members i st p) : ∀ m ∈ st.visited, m ∈ p.2.visited := by
  obtain ⟨-, -, fresh, hv, -, -, -⟩ := hs
  intro m hm
  rw [hv]
  exact List.mem_append_right _ hm

theorem Step.trans (members : List Nat) (i j k : Nat) (st st2 st3 : St)
    (h1 : Step members i st (j, st2)) (h2 : Step members j st2 (k, st3)) :
    Step members i st (k, st3) := by
  obtain ⟨hij, hsid1, fresh1, hv1, hl1, hnd1, hall1⟩ := h1
  obtain ⟨hjk, hsid2, fresh2, hv2, hl2, hnd2, hall2⟩ := h2
  dsimp only at hij hjk hsid1 hsid2 hv1 hv2 hl1 hl2 hall1 hall2
  refine ⟨Nat.le_trans hij hjk, ?_, fresh2 ++ fresh1, ?_, ?_, ?_, ?_⟩
  · intro m hm
    have hm2 : m ∈ st2.visited := by
      rw [hv1]; exact List.mem_append_right _ hm
    rw [hsid2 m hm2, hsid1 m hm]
  · rw [hv2, hv1, List.append_assoc]
  · simp only [List.length_append]
    omega
  · refine List.Nodup.append hnd2 hnd1 ?_
    intro x hx2 hx1
    have : x ∈ st2.visited := by
      rw [hv1]; exact List.mem_append_left _ hx1
    exact (hall2 x hx2).1 this
  · intro m hm
    dsimp only
    rcases List.mem_append.mp hm with hm2 | hm1
    · obtain ⟨hnv2, hmem2, hlo, hhi⟩ := hall2 m hm2
      refine ⟨fun hv => hnv2 ?_, hmem2, by omega, hhi⟩
      rw [hv1]
      exact List.mem_append_right _ hv
    · obtain ⟨hnv1, hmem1, hlo, hhi⟩ := hall1 m hm1
      have hmv2 : m ∈ st2.visited := by
        rw [hv1]; exact List.mem_append_left _ hm1
      refine ⟨hnv1, hmem1, ?_, ?_⟩
      · rw [hsid2 m hmv2]; omega
      · rw [hsid2 m hmv2]; omega

theorem Closed.comp (g : Nat → List Nat) (members : List Nat) (st st2 st3 : St)
    (hmono : ∀ x ∈ st2.visited, x ∈ st3.visited)
    (h12 : Closed g members st st2) (h23 : Closed g members st2 st3) :
    Closed g members st st3 := by
  intro m hm3 hnv s hs hsm
  by_cases hm2 : m ∈ st2.visited
  · exact hmono _ (h12 m hm2 hnv s hs hsm)
  · exact h23 m hm3 hm2 s hs hsm

theorem foldAux_spec (g : Nat → List Nat) (members : List Nat)
    (f : Nat → Nat → St → Nat × St) (fuel : Nat)
    (hstep : ∀ cur i st, cur ∈ members → cur ∉ st.visited →
      Step members i st (f cur i st))
    (hfull : ∀ cur i st, cur ∈ members → cur ∉ st.visited →
      unvisCount members st ≤ fuel →
      cur ∈ (f cur i st).2.visited ∧ Closed g members st (f cur i st).2 ∧
      (∀ s ∈ g cur, s ∈ members → s ∈ (f cur i st).2.visited)) :
    ∀ (l : List Nat) (i : Nat) (st : St),
      Step members i st (numberFoldAux members f l i st) ∧
      (unvisCount members st ≤ fuel →
        Closed g members st (numberFoldAux members f l i st).2 ∧
        ∀ s ∈ l, s ∈ members → s ∈ (numberFoldAux members f l i st).2.visited) := by
  intro l
  induction l with
  | nil =>
    intro i st
    exact ⟨Step.refl_ members i st, fun _ => ⟨fun m hm hnm => absurd hm hnm, by simp⟩⟩
  | cons s rest ih =>
    intro i st
    by_cases hguard : s ∈ members ∧ s ∉ st.visited
    · rw [numberFoldAux, if_pos hguard]
      have hfs := hstep s i st hguard.1 hguard.2
      have hrest := ih (f s i st).1 (f s i st).2
      constructor
      · exact Step.trans members i (f s i st).1
          (numberFoldAux members f rest (f s i st).1 (f s i st).2).1 st
          (f s i st).2 (numberFoldAux members f rest (f s i st).1 (f s i st).2).2
          hfs hrest.1
      · intro hcount
        have hful := hfull s i st hguard.1 hguard.2 hcount
        have hcount2 : unvisCount members (f s i st).2 ≤ fuel :=
          Nat.le_trans
            (unvisCount_mono members st (f s i st).2
              (Step.mono_visited members i st (f s i st) hfs))
            hcount
        have hrest2 := hrest.2 hcount2
        have hmono : ∀ x ∈ (f s i st).2.visited,
            x ∈ (numberFoldAux members f rest (f s i st).1 (f s i st).2).2.visited :=
          Step.mono_visited members _ _ _ hrest.1
        refine ⟨Closed.comp g members st (f s i st).2 _ hmono hful.2.1 hrest2.1, ?_⟩
        intro s2 hs2 hs2m
        rcases List.mem_cons.mp hs2 with rfl | hs2r
        · exact hmono _ hful.1
        · exact hrest2.2 s2 hs2r hs2m
    · rw [numberFoldAux, if_neg hguard]
      have hrest := ih i st
      refine ⟨hrest.1, fun hcount => ?_⟩
      have hrest2 := hrest.2 hcount
      refine ⟨hrest2.1, ?_⟩
      intro s2 hs2 hs2m
      rcases List.mem_cons.mp hs2 with rfl | hs2r
      · have hv : s2 ∈ st.visited := by
          by_contra hnv
          exact hguard ⟨hs2m, hnv⟩
        exact Step.mono_visited members _ _ _ hrest.1 _ hv
      · exact hrest2.2 s2 hs2r hs2m

theorem number_spec (g : Nat → List Nat) (members : List Nat) :
    ∀ (fuel cur i : Nat) (st : St), cur ∈ members → cur ∉ st.visited →
      Step members i st (number g members fuel cur i st) ∧
      (unvisCount members st ≤ fuel →
        cur ∈ (number g members fuel cur i st).2.visited ∧
        Closed g members st (number g members fuel cur i st).2 ∧
        (∀ s ∈ g cur, s ∈ members → s ∈ (number g members fuel cur i st).2.visited)) := by
  intro fuel
  induction fuel with
  | zero =>
    intro cur i st hmem hnv
    refine ⟨Step.refl_ members i st, fun hcount => absurd hcount ?_⟩
    have := unvisCount_pos members st cur hmem hnv
    omega
  | succ fuel ih =>
    intro cur i st hmem hnv
    have hfold := foldAux_spec g members (number g members fuel) fuel
      (fun c j s hc hnc => (ih c j s hc hnc).1)
      (fun c j s hc hnc hcnt => (ih c j s hc hnc).2 hcnt)
      (g cur) i (markVisited cur st)
    set st1 := markVisited cur st with hst1
    set q := numberFoldAux members (number g members fuel) (g cur) i st1 with hq
    have hresult : number g members (fuel + 1) cur i st =
        (q.1 + 1, writeSid cur q.1 q.2) := rfl
    obtain ⟨hle, hsid, fresh, hv, hlen, hnd, hall⟩ := hfold.1
    have hcurnv1 : cur ∈ st1.visited := List.mem_cons_self _ _
    have hcurfresh : cur ∉ fresh := fun hc => (hall cur hc).1 hcurnv1
    have hstep : Step members i st (q.1 + 1, writeSid cur q.1 q.2) := by
      refine ⟨by omega, ?_, fresh ++ [cur], ?_, ?_, ?_, ?_⟩
      · intro m hm
        have hmne : m ≠ cur := fun h => hnv (h ▸ hm)
        show Function.update q.2.sid cur q.1 m = st.sid m
        rw [Function.update_noteq hmne]
        exact hsid m (List.mem_cons_of_mem _ hm)
      · show q.2.visited = (fresh ++ [cur]) ++ st.visited
        rw [hv]
        show fresh ++ st1.visited = _
        rw [hst1]
        show fresh ++ (cur :: st.visited) = _
        simp
      · simp only [List.length_append, List.length_cons, List.length_nil]
        omega
      · refine List.Nodup.append hnd (List.nodup_singleton cur) ?_
        intro x hx1 hx2
        rw [List.mem_singleton] at hx2
        exact hcurfresh (hx2 ▸ hx1)
      · intro m hm
        rcases List.mem_append.mp hm with hmf | hmc
        · obtain ⟨hnv1, hmem1, hlo, hhi⟩ := hall m hmf
          have hmne : m ≠ cur := fun h => hnv1 (h ▸ hcurnv1)
          refine ⟨fun hmv => hnv1 (List.mem_cons_of_mem _ hmv), hmem1, ?_, ?_⟩
          · show i ≤ Function.update q.2.sid cur q.1 m
            rw [Function.update_noteq hmne]
            omega
          · show Function.update q.2.sid cur q.1 m < q.1 + 1
            rw [Function.update_noteq hmne]
            omega
        · rw [List.mem_singleton] at hmc
          subst hmc
          refine ⟨hnv, hmem, ?_, ?_⟩
          · show i ≤ Function.update q.2.sid m q.1 m
            rw [Function.update_same]
            omega
          · show Function.update q.2.sid m q.1 m < q.1 + 1
            rw [Function.update_same]
            omega
    refine ⟨hresult ▸ hstep, fun hcount => ?_⟩
    have hcount1 : unvisCount members st1 ≤ fuel := by
      have := unvisCount_mark_lt members st cur hmem hnv
      rw [hst1] at *
      omega
    have hfold2 := hfold.2 hcount1
    have hcurq : cur ∈ q.2.visited := by
      rw [hv]
      exact List.mem_append_right _ hcurnv1
    refine ⟨hcurq, ?_, ?_⟩
    · show Closed g members st (writeSid cur q.1 q.2)
      intro m hm hnvm s hs hsm
      show s ∈ q.2.visited
      by_cases hmc : m = cur
      · subst hmc
        exact hfold2.2 s hs hsm
      · have hm2 : m ∈ q.2.visited := hm
        have hnv1 : m ∉ st1.visited := by
          rw [hst1]
          intro hcon
          rcases List.mem_cons.mp hcon with h | h
          · exact hmc h
          · exact hnvm h
        exact hfold2.1 m hm2 hnv1 s hs hsm
    · intro s hs hsm
      exact hfold2.2 s hs hsm

theorem entriesDFS_spec (g : Nat → List Nat) (members : List Nat) :
    ∀ (entries : List Nat) (num : Nat) (st : St),
      Step members num st (entriesDFS g members entries num st) ∧
      Closed g members st (entriesDFS g members entries num st).2 ∧
      (∀ e ∈ entries, ∀ s ∈ g e, s ∈ members →
        s ∈ (entriesDFS g members entries num st).2.visited) := by
  intro entries
  induction entries with
  | nil =>
    intro num st
    exact ⟨Step.refl_ members num st, fun m hm hnm => absurd hm hnm, by simp⟩
  | cons e rest ih =>
    intro num st
    have hfold := foldAux_spec g members (number g members members.length) members.length
      (fun c j s hc hnc => (number_spec g members members.length c j s hc hnc).1)
      (fun c j s hc hnc hcnt => (number_spec g members members.length c j s hc hnc).2 hcnt)
      (g e) num st
    set q := numberFoldAux members (number g members members.length) (g e) num st with hqdef
    have hq2 := hfold.2 (unvisCount_le_length members st)
    have hrest := ih q.1 q.2
    have hres : entriesDFS g members (e :: rest) num st =
        entriesDFS g members rest q.1 q.2 := rfl
    rw [hres]
    refine ⟨?_, ?_, ?_⟩
    · exact Step.trans members num q.1 (entriesDFS g members rest q.1 q.2).1 st q.2
        (entriesDFS g members rest q.1 q.2).2 hfold.1 hrest.1
    · exact Closed.comp g members st q.2 _
        (Step.mono_visited members _ _ _ hrest.1) hq2.1 hrest.2.1
    · intro e2 he2 s hs hsm
      rcases List.mem_cons.mp he2 with rfl | he2r
      · exact Step.mono_visited members _ _ _ hrest.1 _ (hq2.2 s hs hsm)
      · exact hrest.2.2 e2 he2r s hs hsm

theorem assignEntries_spec :
    ∀ (l : List Nat) (num : Nat) (sid : Nat → Nat),
      (assignEntries l num sid).1 = num + l.length ∧
      (∀ m, m ∉ l → (assignEntries l num sid).2 m = sid m) ∧
      (l.Nodup → ∀ (i : Nat) (hi : i < l.length),
        (assignEntries l num sid).2 (l.get ⟨i, hi⟩) = num + i) := by
  intro l
  induction l with
  | nil =>
    intro num sid
    exact ⟨by simp [assignEntries], fun m _ => rfl, fun _ i hi => by simp at hi⟩
  | cons e rest ih =>
    intro num sid
    have h := ih (num + 1) (Function.update sid e num)
    have hres : assignEntries (e :: rest) num sid =
        assignEntries rest (num + 1) (Function.update sid e num) := rfl
    refine ⟨?_, ?_, ?_⟩
    · rw [hres, h.1]
      simp only [List.length_cons]
      omega
    · intro m hm
      have hmr : m ∉ rest := fun hc => hm (List.mem_cons_of_mem _ hc)
      have hme : m ≠ e := fun hc => hm (hc ▸ List.mem_cons_self ..)
      rw [hres, h.2.1 m hmr, Function.update_noteq hme]
    · intro hnd i hi
      have hnd2 := List.nodup_cons.mp hnd
      rw [hres]
      cases i with
      | zero =>
        show (assignEntries rest (num + 1) (Function.update sid e num)).2 e = num + 0
        rw [h.2.1 e hnd2.1, Function.update_same]
        omega
      | succ i2 =>
        have hi2 : i2 < rest.length := by simpa using hi
        show (assignEntries rest (num + 1) (Function.update sid e num)).2
          (rest.get ⟨i2, hi2⟩) = num + (i2 + 1)
        rw [h.2.2 hnd2.2 i2 hi2]
        omega

theorem length_filter_mem_eq (members visited : List Nat)
    (hm : members.Nodup) (hv : visited.Nodup)
    (hsub : ∀ v ∈ visited, v ∈ members) :
    (members.filter (fun x => decide (x ∈ visited))).length = visited.length := by
  classical
  have h1 : (members.filter (fun x => decide (x ∈ visited))).Nodup := hm.filter _
  rw [← List.toFinset_card_of_nodup h1, ← List.toFinset_card_of_nodup hv]
  congr 1
  ext x
  simp only [List.mem_toFinset, List.mem_filter, decide_eq_true_eq]
  exact ⟨fun h => h.2, fun h => ⟨hsub x h, h⟩⟩

theorem length_le_of_nodup_sub (visited members : List Nat)
    (hv : visited.Nodup) (hm : members.Nodup)
    (hsub : ∀ v ∈ visited, v ∈ members) :
    visited.length ≤ members.length := by
  classical
  rw [← List.toFinset_card_of_nodup hv, ← List.toFinset_card_of_nodup hm]
  exact Finset.card_le_card
    (fun x hx => List.mem_toFinset.mpr (hsub x (List.mem_toFinset.mp hx)))

theorem not_mem_take_of_ge (f : Nat → Nat) (L : List Nat) (num : Nat)
    (hsorted : List.Pairwise (fun a b => f a ≤ f b) L)
    (hcount : (L.filter (fun x => decide (f x < num))).length = num)
    (m : Nat) (hm : num ≤ f m) :
    m ∉ L.take num := by
  intro hmem
  have hnum_le : num ≤ L.length := by
    have := List.length_filter_le (fun x => decide (f x < num)) L
    omega
  have htlen : (L.take num).length = num := by
    rw [List.length_take]
    omega
  have hsplit := (List.take_append_drop num L).symm
  rw [hsplit, List.pairwise_append] at hsorted
  rw [hsplit, List.filter_append, List.length_append] at hcount
  have htfilter : ((L.take num).filter (fun x => decide (f x < num))).length <
      (L.take num).length := by
    rw [List.length_filter_lt_length_iff_exists]
    refine ⟨m, hmem, ?_⟩
    simp only [decide_eq_true_eq]
    omega
  have hdpos : 0 < ((L.drop num).filter (fun x => decide (f x < num))).length := by
    omega
  obtain ⟨d, hd⟩ := List.exists_mem_of_length_pos hdpos
  have hd2 := List.mem_filter.mp hd
  have hcross := hsorted.2.2 m hmem d hd2.1
  have hdlt : f d < num := by simpa using hd2.2
  omega

/-- C1: for a Scope built from a non-empty entry list — the postorder
walk of `Scope::process` followed by the reversal — (i) every member the
walk reached carries `sid = num − 1 − post` where `post` is its postorder
number; (ii) the entries receive the lowest sids in presentation order,
entry `i` getting `sid = i`; (iii) every member the walk did not reach
carries `sid = ⊥` (`size_t(-1)`) and is excluded from the sorted,
truncated `rpo()` vector; and (iv) the walk reaches all entries and its
visited set is closed under in-scope successors, so "reached" means
reachable from the entries inside the scope. -/
theorem scope_process_rpo_numbering (g : Nat → List Nat)
    (members entries : List Nat) (sid0 : Nat → Nat)
    (hne : entries ≠ []) (hsub : ∀ e ∈ entries, e ∈ members)
    (hmnd : members.Nodup) (hend : entries.Nodup)
    (hsize : members.length < botSid) :
    (∀ m ∈ (process g members entries sid0).visited,
      (process g members entries sid0).sid m =
        (process g members entries sid0).num - 1 -
          (process g members entries sid0).post m) ∧
    (∀ (i : Nat) (hi : i < entries.length),
      (process g members entries sid0).sid (entries.get ⟨i, hi⟩) = i) ∧
    (∀ m ∈ members, m ∉ (process g members entries sid0).visited →
      (process g members entries sid0).sid m = botSid ∧
        m ∉ (process g members entries sid0).rpo) ∧
    (∀ e ∈ entries, e ∈ (process g members entries sid0).visited) ∧
    (∀ m ∈ (process g members entries sid0).visited,
      ∀ s ∈ g m, s ∈ members → s ∈ (process g members entries sid0).visited) := by
  set st0 : St := ⟨entries, sid0⟩ with hst0
  set p1 := entriesDFS g members entries 0 st0 with hp1
  set p2 := assignEntries entries.reverse p1.1 p1.2.sid with hp2
  have hPvis : (process g members entries sid0).visited = p1.2.visited := rfl
  have hPnum : (process g members entries sid0).num = p2.1 := rfl
  have hPpost : (process g members entries sid0).post = p2.2 := rfl
  have hPsid : (process g members entries sid0).sid =
      finalSid p1.2.visited p2.1 p2.2 := rfl
  have hPrpo : (process g members entries sid0).rpo =
      (List.insertionSort
        (fun a b => finalSid p1.2.visited p2.1 p2.2 a ≤
          finalSid p1.2.visited p2.1 p2.2 b) members).take p2.1 := rfl
  have hDFS := entriesDFS_spec g members entries 0 st0
  rw [← hp1] at hDFS
  obtain ⟨⟨hle, hsidpres, fresh, hv, hflen, hfnd, hfall⟩, hClosed, hCover⟩ := hDFS
  have hA := assignEntries_spec entries.reverse p1.1 p1.2.sid
  have hk : entries.reverse.length = entries.length := List.length_reverse _
  have hnum : p2.1 = p1.1 + entries.length := by
    rw [hp2, hA.1, hk]
  have hkpos : 1 ≤ entries.length :=
    List.length_pos.mpr hne
  have hnumpos : 1 ≤ p2.1 := by omega
  have hst0vis : st0.visited = entries := rfl
  rw [hst0vis] at hv hsidpres hfall
  -- every visited node is a member
  have hvismem : ∀ v ∈ p1.2.visited, v ∈ members := by
    intro v hvm
    rw [hv] at hvm
    rcases List.mem_append.mp hvm with h | h
    · exact (hfall v h).2.1
    · exact hsub v h
  have hvislen : p1.2.visited.length = p2.1 := by
    rw [hv, List.length_append, hflen, hnum]
    omega
  have hvisnd : p1.2.visited.Nodup := by
    rw [hv]
    refine List.Nodup.append hfnd hend ?_
    intro x hx1 hx2
    exact (hfall x hx1).1 hx2
  -- sid facts
  have hsidvis : ∀ m ∈ p1.2.visited,
      finalSid p1.2.visited p2.1 p2.2 m = p2.1 - 1 - p2.2 m := by
    intro m hm
    unfold finalSid
    rw [if_pos hm]
  have hsidnot : ∀ m, m ∉ p1.2.visited →
      finalSid p1.2.visited p2.1 p2.2 m = botSid := by
    intro m hm
    unfold finalSid
    rw [if_neg hm]
  refine ⟨?_, ?_, ?_, ?_, ?_⟩
  · intro m hm
    rw [hPsid, hPnum, hPpost]
    exact hsidvis m (hPvis ▸ hm)
  · -- entries: entry i has sid i
    intro i hi
    have hmemvis : entries.get ⟨i, hi⟩ ∈ p1.2.visited := by
      rw [hv]
      exact List.mem_append_right _ (List.get_mem _ _ _)
    have hij : entries.length - 1 - i < entries.reverse.length := by
      rw [hk]; omega
    have hrevget : entries.reverse.get ⟨entries.length - 1 - i, hij⟩ =
        entries.get ⟨i, hi⟩ := List.get_reverse entries i hij hi
    have hpost : p2.2 (entries.get ⟨i, hi⟩) = p1.1 + (entries.length - 1 - i) := by
      rw [hp2, ← hrevget]
      rw [hA.2.2 (List.nodup_reverse.mpr hend) (entries.length - 1 - i) hij]
    rw [hPsid, hsidvis _ hmemvis, hpost, hnum]
    omega
  · -- unreachable members: sid ⊥ and not in rpo
    intro m hmm hmv
    rw [hPvis] at hmv
    rw [hPsid, hPrpo]
    refine ⟨hsidnot m hmv, ?_⟩
    have hnumle : p2.1 ≤ members.length := by
      rw [← hvislen]
      exact length_le_of_nodup_sub _ _ hvisnd hmnd hvismem
    have hsidlt : ∀ x ∈ p1.2.visited, finalSid p1.2.visited p2.1 p2.2 x < p2.1 := by
      intro x hx
      rw [hsidvis x hx]
      omega
    have hbotge : ¬(botSid < p2.1) := by omega
    have hfiltereq :
        members.filter (fun x => decide (finalSid p1.2.visited p2.1 p2.2 x < p2.1)) =
          members.filter (fun x => decide (x ∈ p1.2.visited)) := by
      apply List.filter_congr
      intro x hx
      by_cases hxv : x ∈ p1.2.visited
      · simp [hxv, hsidlt x hxv]
      · rw [hsidnot x hxv]
        simp [hxv, hbotge]
    have hcount : (members.filter
        (fun x => decide (finalSid p1.2.visited p2.1 p2.2 x < p2.1))).length = p2.1 := by
      rw [hfiltereq, length_filter_mem_eq members p1.2.visited hmnd hvisnd hvismem,
        hvislen]
    letI : IsTotal Nat (fun a b => finalSid p1.2.visited p2.1 p2.2 a ≤
        finalSid p1.2.visited p2.1 p2.2 b) :=
      ⟨fun a b => Nat.le_total _ _⟩
    letI : IsTrans Nat (fun a b => finalSid p1.2.visited p2.1 p2.2 a ≤
        finalSid p1.2.visited p2.1 p2.2 b) :=
      ⟨fun a b c h1 h2 => Nat.le_trans h1 h2⟩
    have hsorted : List.Pairwise (fun a b => finalSid p1.2.visited p2.1 p2.2 a ≤
        finalSid p1.2.visited p2.1 p2.2 b)
        (List.insertionSort (fun a b => finalSid p1.2.visited p2.1 p2.2 a ≤
          finalSid p1.2.visited p2.1 p2.2 b) members) :=
      List.sorted_insertionSort _ members
    have hperm : List.Perm (List.insertionSort
        (fun a b => finalSid p1.2.visited p2.1 p2.2 a ≤
          finalSid p1.2.visited p2.1 p2.2 b) members) members :=
      List.perm_insertionSort _ members
    have hcount2 : ((List.insertionSort (fun a b => finalSid p1.2.visited p2.1 p2.2 a ≤
        finalSid p1.2.visited p2.1 p2.2 b) members).filter
        (fun x => decide (finalSid p1.2.visited p2.1 p2.2 x < p2.1))).length = p2.1 := by
      rw [(hperm.filter _).length_eq]
      exact hcount
    refine not_mem_take_of_ge (finalSid p1.2.visited p2.1 p2.2) _ p2.1 hsorted hcount2 m ?_
    rw [hsidnot m hmv]
    omega
  · intro e he
    rw [hPvis, hv]
    exact List.mem_append_right _ he
  · intro m hm s hs hsm
    rw [hPvis] at hm ⊢
    rw [hv] at hm
    rcases List.mem_append.mp hm with hmf | hme
    · exact hClosed m (by rw [hv]; exact List.mem_append_left _ hmf)
        (by rw [hst0vis]; exact (hfall m hmf).1) s hs hsm
    · exact hCover m hme s hs hsm

/-- C1 witness: the diamond of spec §8 scenario 3 — entries `[0]`,
members `[0, 1, 2, 3]`. -/
theorem scope_process_rpo_numbering_witness :
    (([0] : List Nat) ≠ [] ∧ (∀ e ∈ ([0] : List Nat), e ∈ [0, 1, 2, 3]) ∧
      ([0, 1, 2, 3] : List Nat).Nodup ∧ ([0] : List Nat).Nodup ∧
      ([0, 1, 2, 3] : List Nat).length < botSid) ∧
    ((∀ m ∈ (process Fix.diamond [0, 1, 2, 3] [0] (fun _ => 0)).visited,
      (process Fix.diamond [0, 1, 2, 3] [0] (fun _ => 0)).sid m =
        (process Fix.diamond [0, 1, 2, 3] [0] (fun _ => 0)).num - 1 -
          (process Fix.diamond [0, 1, 2, 3] [0] (fun _ => 0)).post m) ∧
    (∀ (i : Nat) (hi : i < ([0] : List Nat).length),
      (process Fix.diamond [0, 1, 2, 3] [0] (fun _ => 0)).sid
        (([0] : List Nat).get ⟨i, hi⟩) = i) ∧
    (∀ m ∈ ([0, 1, 2, 3] : List Nat),
      m ∉ (process Fix.diamond [0, 1, 2, 3] [0] (fun _ => 0)).visited →
      (process Fix.diamond [0, 1, 2, 3] [0] (fun _ => 0)).sid m = botSid ∧
        m ∉ (process Fix.diamond [0, 1, 2, 3] [0] (fun _ => 0)).rpo) ∧
    (∀ e ∈ ([0] : List Nat),
      e ∈ (process Fix.diamond [0, 1, 2, 3] [0] (fun _ => 0)).visited) ∧
    (∀ m ∈ (process Fix.diamond [0, 1, 2, 3] [0] (fun _ => 0)).visited,
      ∀ s ∈ Fix.diamond m, s ∈ ([0, 1, 2, 3] : List Nat) →
        s ∈ (process Fix.diamond [0, 1, 2, 3] [0] (fun _ => 0)).visited)) := by
  refine ⟨⟨by decide, by decide, by decide, by decide, by decide⟩, ?_⟩
  exact scope_process_rpo_numbering Fix.diamond [0, 1, 2, 3] [0] (fun _ => 0)
    (by decide) (by decide) (by decide) (by decide) (by decide)

end ScopeM

end Thorin
